import Mathlib

/-!
Verification of `notasimdlib.h`, a header-only C library that generates
fixed-width "SIMD-like" vector struct types and elementwise/reduction
operations over them.

Embedding notes:
* A generated vector aggregate `simd_t(T)` (a struct wrapping `T v[VLEN(T)]`)
  is embedded as a structure wrapping a function `Fin n → α`, where
  `n = VLEN` is the element count for the configured register width.
* The C `for (i = 0; i < VLEN(T); i++)` accumulator loops of the reduction
  macros are embedded as `Fin.foldl n`, the ascending left-to-right fold.
* The C `int` scalar type's arithmetic is embedded on `Int`: C's `/` on
  `int` truncates toward zero, which is `Int.tdiv`; two's-complement
  wrapping of 32-bit results is `int32wrap`.
-/

namespace NotASimdLib

/-- Default register width in bits (`#define XLEN 128` when not user-defined). -/
def XLEN_default : Nat := 128

/-- `VLEN(T) = XLEN / (8 * sizeof(T))`: the number of elements of a scalar
type of byte size `sz` that fit in an `xlen`-bit register, with C's
truncating integer division. -/
def VLEN (xlen sz : Nat) : Nat := xlen / (8 * sz)

/-- The generated vector aggregate `simd_t(T)`: a struct whose sole member is
an array `v` of `n` scalars. -/
structure simd_t (α : Type) (n : Nat) where
  v : Fin n → α

theorem simd_t_eq_of_v {α : Type} {n : Nat} {a b : simd_t α n}
    (h : a.v = b.v) : a = b := by
  cases a; cases b; cases h; rfl

instance {α : Type} {n : Nat} [DecidableEq α] : DecidableEq (simd_t α n) :=
  fun a b =>
    match a, b with
    | ⟨f⟩, ⟨g⟩ => decidable_of_iff (f = g) (by simp)

/-- `simd_apply_binop(T, a, b, op)`: the expression-level generator; builds
`c` with `c.v[i] = a.v[i] op b.v[i]` for every `i` in `[0, VLEN)`. -/
def simd_apply_binop {α : Type} {n : Nat} (op : α → α → α)
    (a b : simd_t α n) : simd_t α n :=
  ⟨fun i => op (a.v i) (b.v i)⟩

/-- `decl_simd_bin_op(name, T, op)`: the separately declared function
`name_simd_v{T}{XLEN}_t(a, b)`; its body is the same elementwise loop
`c.v[i] = a.v[i] op b.v[i]`, returning `c` by value. -/
def decl_simd_bin_op {α : Type} {n : Nat} (op : α → α → α)
    (a b : simd_t α n) : simd_t α n :=
  ⟨fun i => op (a.v i) (b.v i)⟩

/-- `simd_apply_add(T, a, b) = simd_apply_binop(T, a, b, +)`. -/
def simd_apply_add {α : Type} {n : Nat} [Add α] (a b : simd_t α n) : simd_t α n :=
  simd_apply_binop (fun x y => x + y) a b

/-- `simd_apply_sub(T, a, b) = simd_apply_binop(T, a, b, -)`. -/
def simd_apply_sub {α : Type} {n : Nat} [Sub α] (a b : simd_t α n) : simd_t α n :=
  simd_apply_binop (fun x y => x - y) a b

/-- `simd_apply_mul(T, a, b) = simd_apply_binop(T, a, b, *)`. -/
def simd_apply_mul {α : Type} {n : Nat} [Mul α] (a b : simd_t α n) : simd_t α n :=
  simd_apply_binop (fun x y => x * y) a b

/-- `simd_apply_div(T, a, b) = simd_apply_binop(T, a, b, /)`. -/
def simd_apply_div {α : Type} {n : Nat} [Div α] (a b : simd_t α n) : simd_t α n :=
  simd_apply_binop (fun x y => x / y) a b

/-- `simd_reduce_func(T, func, ...)`: `accum = 0`, then for `i` from `0` to
`VLEN-1` in ascending order, `accum = func(accum, i, ...)`; the extra vector
arguments are captured inside `func`. -/
def simd_reduce_func {α : Type} (n : Nat) [Zero α] (func : α → Fin n → α) : α :=
  Fin.foldl n func 0

/-- `simd_reduce_expr(T, expr, ...)`: textually the same loop as
`simd_reduce_func`, with the per-step update given as an inline expression
over `(accum, i, ...)`. -/
def simd_reduce_expr {α : Type} (n : Nat) [Zero α] (expr : α → Fin n → α) : α :=
  Fin.foldl n expr 0

/-- `simd_apply_sum(T, a)`: `accum = 0`, then `accum += a.v[i]` for `i` from
`0` to `VLEN-1` in ascending order. -/
def simd_apply_sum {α : Type} {n : Nat} [Zero α] [Add α] (a : simd_t α n) : α :=
  Fin.foldl n (fun accum i => accum + a.v i) 0

/-- `simd_apply_dot(T, a, b) = simd_apply_sum(T, simd_apply_mul(T, a, b))`. -/
def simd_apply_dot {α : Type} {n : Nat} [Zero α] [Add α] [Mul α]
    (a b : simd_t α n) : α :=
  simd_apply_sum (simd_apply_mul a b)

/-- Spec-side definition, from the spec's words: the zero-initialized,
ascending-index, left-to-right sum of products `accum + a[i] * b[i]`,
written as an explicit fold over the ascending index list `[0, ..., n-1]`. -/
def dotSpec {α : Type} {n : Nat} [Zero α] [Add α] [Mul α]
    (a b : simd_t α n) : α :=
  (List.finRange n).foldl (fun accum i => accum + a.v i * b.v i) 0

/-- Spec-side definition, from the spec's words: the left-to-right fold of a
combining step `f` over the strictly ascending index list `[0, ..., n-1]`,
starting from a given accumulator. -/
def ascendingFold {α : Type} (n : Nat) (f : α → Fin n → α) (init : α) : α :=
  (List.finRange n).foldl f init

/-- C `int` truncating division (C11 6.5.5: `/` on integers truncates toward
zero), the operator `simd_apply_div` instantiates for `int` vectors. -/
def i32div (x y : Int) : Int := Int.tdiv x y

/-- Two's-complement wrap of an integer into the 32-bit `int` range. -/
def int32wrap (x : Int) : Int := (x + 2 ^ 31) % 2 ^ 32 - 2 ^ 31

/-- C `int` addition with 32-bit two's-complement wrapping. -/
def i32add (x y : Int) : Int := int32wrap (x + y)

/-- C `int` multiplication with 32-bit two's-complement wrapping. -/
def i32mul (x y : Int) : Int := int32wrap (x * y)

/-- Operational model of the declared binary-op function body: the three
stack-resident aggregates `a`, `b` (the by-value parameters) and `c` (the
local result) visible to the loop. -/
structure BinopState (α : Type) (n : Nat) where
  a : simd_t α n
  b : simd_t α n
  c : simd_t α n

/-- One iteration of the loop body `c.v[i] = a.v[i] op b.v[i]`: a store to
`c` at index `i`, reading `a` and `b`. -/
def binopStep {α : Type} {n : Nat} (op : α → α → α)
    (s : BinopState α n) (i : Fin n) : BinopState α n :=
  { s with c := ⟨Function.update s.c.v i (op (s.a.v i) (s.b.v i))⟩ }

/-- The whole loop, run over `i = 0, ..., n-1` in ascending order. -/
def binopRun {α : Type} {n : Nat} (op : α → α → α)
    (s : BinopState α n) : BinopState α n :=
  Fin.foldl n (binopStep op) s

theorem binopFold_invariant {α : Type} {n : Nat} (op : α → α → α) :
    ∀ (l : List (Fin n)) (s : BinopState α n),
      (l.foldl (binopStep op) s).a = s.a ∧
      (l.foldl (binopStep op) s).b = s.b ∧
      ∀ x, (x ∈ l → (l.foldl (binopStep op) s).c.v x = op (s.a.v x) (s.b.v x)) ∧
           (x ∉ l → (l.foldl (binopStep op) s).c.v x = s.c.v x) := by
  intro l
  induction l with
  | nil =>
    intro s
    refine ⟨rfl, rfl, fun x => ⟨fun hx => absurd hx (List.not_mem_nil x), fun _ => rfl⟩⟩
  | cons i l ih =>
    intro s
    have h := ih (binopStep op s i)
    refine ⟨h.1, h.2.1, fun x => ⟨fun hx => ?_, fun hx => ?_⟩⟩
    · rcases List.mem_cons.mp hx with hxi | hxl
      · by_cases hl : x ∈ l
        · exact (h.2.2 x).1 hl
        · have hc := (h.2.2 x).2 hl
          rw [List.foldl_cons, hc, hxi]
          simp [binopStep]
      · exact (h.2.2 x).1 hxl
    · have hxi : x ≠ i := fun hcon => hx (hcon ▸ List.mem_cons_self i l)
      have hxl : x ∉ l := fun hcon => hx (List.mem_cons_of_mem i hcon)
      have hc := (h.2.2 x).2 hxl
      rw [List.foldl_cons, hc]
      simp [binopStep, Function.update_noteq hxi]

/-- C1: for all vector aggregates `a`, `b` of the same generated type and
every valid index `i < VLEN`, `simd_apply_add(a,b).v[i] = a.v[i] + b.v[i]`,
and symmetrically for subtraction, multiplication and division. -/
theorem apply_binops_elementwise (α : Type) [Add α] [Sub α] [Mul α] [Div α]
    (n : Nat) (a b : simd_t α n) (i : Fin n) :
    (simd_apply_add a b).v i = a.v i + b.v i ∧
    (simd_apply_sub a b).v i = a.v i - b.v i ∧
    (simd_apply_mul a b).v i = a.v i * b.v i ∧
    (simd_apply_div a b).v i = a.v i / b.v i :=
  ⟨rfl, rfl, rfl, rfl⟩

/-- C2: `simd_apply_dot(a,b)` equals `simd_apply_sum(simd_apply_mul(a,b))`,
and both equal the spec's zero-initialized ascending left-to-right sum of
products `dotSpec`; no other accumulation order is used. -/
theorem apply_dot_is_sum_of_mul (α : Type) [Zero α] [Add α] [Mul α]
    (n : Nat) (a b : simd_t α n) :
    simd_apply_dot a b = simd_apply_sum (simd_apply_mul a b) ∧
    simd_apply_dot a b = dotSpec a b := by
  refine ⟨rfl, ?_⟩
  simp [simd_apply_dot, simd_apply_sum, dotSpec, simd_apply_mul,
    simd_apply_binop, Fin.foldl_eq_foldl_finRange]

/-- C3: `simd_reduce_func` is the left-to-right fold of the combining step
over the strictly ascending index sequence `0, ..., VLEN-1`, started from a
zero accumulator; `simd_apply_sum` is its special case `accum + a.v[i]`. -/
theorem reduce_func_is_ascending_fold (α : Type) [Zero α] [Add α]
    (n : Nat) (func : α → Fin n → α) (a : simd_t α n) :
    simd_reduce_func n func = ascendingFold n func 0 ∧
    simd_apply_sum a = simd_reduce_func n (fun accum i => accum + a.v i) ∧
    simd_apply_sum a = ascendingFold n (fun accum i => accum + a.v i) 0 := by
  refine ⟨?_, rfl, ?_⟩ <;>
    simp [simd_reduce_func, simd_apply_sum, ascendingFold,
      Fin.foldl_eq_foldl_finRange]

/-- C4: `VLEN` is truncating integer division `W / (8 * sz)`: exact when
`8 * sz` divides `W`, and silently truncating downward otherwise, e.g.
a 100-bit width with a 4-byte scalar yields 3 elements. -/
theorem VLEN_truncating_division (W sz : Nat) (h : (8 * sz) ∣ W) :
    VLEN W sz = W / (8 * sz) ∧
    VLEN W sz * (8 * sz) = W ∧
    VLEN 100 4 = 3 := by
  refine ⟨rfl, Nat.div_mul_cancel h, by decide⟩

theorem VLEN_truncating_division_witness :
    VLEN 128 4 = 128 / (8 * 4) ∧
    VLEN 128 4 * (8 * 4) = 128 ∧
    VLEN 100 4 = 3 :=
  VLEN_truncating_division 128 4 (by decide)

/-- C5: a function declared with `decl_simd_bin_op` computes
`result.v[i] = op(a.v[i], b.v[i])` at every index and returns the aggregate
by value, and is extensionally equal to `simd_apply_binop` with the same
operator, in particular for each of `+`, `-`, `*`, `/`. -/
theorem decl_bin_op_matches_apply_binop (α : Type) [Add α] [Sub α] [Mul α]
    [Div α] (n : Nat) (op : α → α → α) (a b : simd_t α n) :
    (∀ i, (decl_simd_bin_op op a b).v i = op (a.v i) (b.v i)) ∧
    decl_simd_bin_op op a b = simd_apply_binop op a b ∧
    decl_simd_bin_op (fun x y => x + y) a b = simd_apply_add a b ∧
    decl_simd_bin_op (fun x y => x - y) a b = simd_apply_sub a b ∧
    decl_simd_bin_op (fun x y => x * y) a b = simd_apply_mul a b ∧
    decl_simd_bin_op (fun x y => x / y) a b = simd_apply_div a b :=
  ⟨fun _ => rfl, rfl, rfl, rfl, rfl, rfl⟩

/-- C6: `simd_reduce_func` and `simd_reduce_expr` given pointwise-equal
combining steps over the same vectors return identical scalar results. -/
theorem reduce_func_eq_reduce_expr (α : Type) [Zero α] (n : Nat)
    (func expr : α → Fin n → α)
    (h : ∀ accum i, func accum i = expr accum i) :
    simd_reduce_func n func = simd_reduce_expr n expr := by
  have hfg : func = expr := funext fun accum => funext fun i => h accum i
  rw [simd_reduce_func, simd_reduce_expr, hfg]

theorem reduce_func_eq_reduce_expr_witness :
    (∀ (accum : Int) (i : Fin 4), accum + (i.val : Int) = (i.val : Int) + accum) ∧
    simd_reduce_func 4 (fun (accum : Int) (i : Fin 4) => accum + (i.val : Int)) =
      simd_reduce_expr 4 (fun (accum : Int) (i : Fin 4) => (i.val : Int) + accum) :=
  ⟨fun accum i => Int.add_comm accum i.val,
   reduce_func_eq_reduce_expr Int 4 _ _ (fun accum i => Int.add_comm accum i.val)⟩

/-- C7: for `int` vectors, `simd_apply_binop` with the C `int` division
applies native truncating division at every index with no added guard (the
equation holds for every divisor vector, zero entries included); truncation
is toward zero; with element count 4, `[5,5,5,5] / [2,2,2,2] = [2,2,2,2]`. -/
theorem apply_div_native_truncating (n : Nat) (a b : simd_t Int n) (i : Fin n) :
    (simd_apply_binop i32div a b).v i = Int.tdiv (a.v i) (b.v i) ∧
    simd_apply_binop i32div (⟨fun _ => 5⟩ : simd_t Int 4) ⟨fun _ => 2⟩ =
      ⟨fun _ => 2⟩ ∧
    i32div (-5) 2 = -2 ∧ i32div 5 (-2) = -2 :=
  ⟨rfl, by decide, by decide, by decide⟩

/-- C8: the declared binary-op loop, run operationally over its stack state,
never modifies the input aggregates `a` and `b`; its result `c` is a pure
function of `a` and `b` alone (independent of the initial contents of the
local `c`), equal to `simd_apply_binop`; hence two runs on equal inputs give
identical outputs. -/
theorem binop_pure_and_deterministic (α : Type) (n : Nat) (op : α → α → α)
    (s0 s1 : BinopState α n) (ha : s0.a = s1.a) (hb : s0.b = s1.b) :
    (binopRun op s0).a = s0.a ∧
    (binopRun op s0).b = s0.b ∧
    (binopRun op s0).c = simd_apply_binop op s0.a s0.b ∧
    (binopRun op s0).c = (binopRun op s1).c := by
  have key : ∀ s : BinopState α n,
      (binopRun op s).a = s.a ∧ (binopRun op s).b = s.b ∧
      (binopRun op s).c = simd_apply_binop op s.a s.b := by
    intro s
    have h := binopFold_invariant op (List.finRange n) s
    rw [binopRun, Fin.foldl_eq_foldl_finRange]
    refine ⟨h.1, h.2.1, simd_t_eq_of_v (funext fun x => ?_)⟩
    exact (h.2.2 x).1 (List.mem_finRange x)
  refine ⟨(key s0).1, (key s0).2.1, (key s0).2.2, ?_⟩
  rw [(key s0).2.2, (key s1).2.2, ha, hb]

theorem binop_pure_and_deterministic_witness :
    (binopRun i32add ⟨⟨fun _ => 3⟩, ⟨fun _ => 4⟩, ⟨fun _ => 9⟩⟩ :
        BinopState Int 2).a = ⟨fun _ => 3⟩ ∧
    (binopRun i32add ⟨⟨fun _ => 3⟩, ⟨fun _ => 4⟩, ⟨fun _ => 9⟩⟩ :
        BinopState Int 2).b = ⟨fun _ => 4⟩ ∧
    (binopRun i32add ⟨⟨fun _ => 3⟩, ⟨fun _ => 4⟩, ⟨fun _ => 9⟩⟩ :
        BinopState Int 2).c =
      simd_apply_binop i32add ⟨fun _ => 3⟩ ⟨fun _ => 4⟩ ∧
    (binopRun i32add ⟨⟨fun _ => 3⟩, ⟨fun _ => 4⟩, ⟨fun _ => 9⟩⟩ :
        BinopState Int 2).c =
      (binopRun i32add ⟨⟨fun _ => 3⟩, ⟨fun _ => 4⟩, ⟨fun _ => 7⟩⟩ :
        BinopState Int 2).c :=
  binop_pure_and_deterministic Int 2 i32add
    ⟨⟨fun _ => 3⟩, ⟨fun _ => 4⟩, ⟨fun _ => 9⟩⟩
    ⟨⟨fun _ => 3⟩, ⟨fun _ => 4⟩, ⟨fun _ => 7⟩⟩ rfl rfl

/-- C9: when the register width is smaller than the scalar's bit width, the
truncating division makes `VLEN` zero, and every reduction over a
zero-element vector type returns the zero initial accumulator for every
combining step, which is never invoked. -/
theorem zero_element_reductions (α : Type) [Zero α] [Add α] (W sz : Nat)
    (h : W < 8 * sz) (func expr : α → Fin 0 → α) (a : simd_t α 0) :
    VLEN W sz = 0 ∧
    simd_reduce_func 0 func = 0 ∧
    simd_reduce_expr 0 expr = 0 ∧
    simd_apply_sum a = 0 := by
  refine ⟨Nat.div_eq_of_lt h, ?_, ?_, ?_⟩ <;>
    simp [simd_reduce_func, simd_reduce_expr, simd_apply_sum, Fin.foldl_zero]

theorem zero_element_reductions_witness :
    VLEN 16 4 = 0 ∧
    simd_reduce_func 0 (fun (accum : Int) (_ : Fin 0) => accum + 1) = 0 ∧
    simd_reduce_expr 0 (fun (accum : Int) (_ : Fin 0) => accum * 2) = 0 ∧
    simd_apply_sum (⟨Fin.elim0⟩ : simd_t Int 0) = 0 :=
  zero_element_reductions Int 16 4 (by decide) _ _ ⟨Fin.elim0⟩

/-- C10: for integer vectors (both ideal `Int` arithmetic and 32-bit
two's-complement wrapping arithmetic), the built-in elementwise addition and
multiplication are commutative at every index. -/
theorem apply_add_mul_commutative (n : Nat) (a b : simd_t Int n) :
    simd_apply_add a b = simd_apply_add b a ∧
    simd_apply_mul a b = simd_apply_mul b a ∧
    simd_apply_binop i32add a b = simd_apply_binop i32add b a ∧
    simd_apply_binop i32mul a b = simd_apply_binop i32mul b a := by
  refine ⟨simd_t_eq_of_v (funext fun i => ?_), simd_t_eq_of_v (funext fun i => ?_),
    simd_t_eq_of_v (funext fun i => ?_), simd_t_eq_of_v (funext fun i => ?_)⟩
  · exact Int.add_comm (a.v i) (b.v i)
  · exact Int.mul_comm (a.v i) (b.v i)
  · exact congrArg int32wrap (Int.add_comm (a.v i) (b.v i))
  · exact congrArg int32wrap (Int.mul_comm (a.v i) (b.v i))

end NotASimdLib
